import Mathlib

/-!
Verification of the svb2json repository: a shallow embedding of the SBV
subtitle parser (`src/svb2json/parser.py`) and the token chunker
(`src/svb2json/chunk2tokens.py`), with theorems settling the specified
properties of `merge_subtitles`, `parse_timestamp`, `parse_sbv` and
`chunk_json_content`.
-/

/-- Embeds the `SubtitleEntry` TypedDict of `parser.py`: a subtitle unit with
a sequence number, start/end times (milliseconds or seconds, per an external
unit flag) and a text payload.  Times are modelled as unbounded integers,
matching Python's `int`. -/
structure SubtitleEntry where
  id : Nat
  start : Int
  stop : Int
  text : String
deriving DecidableEq

/-- Models Python's `" ".join(texts)`: concatenation with a single space
between consecutive elements. -/
def joinSpace : List String → String
  | [] => ""
  | [t] => t
  | t :: rest => t ++ " " ++ joinSpace rest

/-- Models `round(2 * d / 3)` computed by `merge_subtitles` on an integer `d`.
The exact value `2*d/3` has fractional part `0`, `1/3` or `2/3`, so Python's
round-half-to-even coincides with rounding to the nearest integer, which for
naturals is `(2*d + 1) / 3` with floor division. -/
def min_duration_threshold (d : Nat) : Nat :=
  (2 * d + 1) / 3

/-- The target duration scaled to the unit of the entries, as computed at the
top of `merge_subtitles`: `duration_seconds` itself when `use_seconds`,
`duration_seconds * 1000` otherwise. -/
def scaledDuration (duration_seconds : Nat) (use_seconds : Bool) : Int :=
  if use_seconds then (duration_seconds : Int) else ((duration_seconds : Int) * 1000)

/-- The `min_duration_threshold` local of `merge_subtitles`, scaled to the
unit of the entries. -/
def scaledThreshold (duration_seconds : Nat) (use_seconds : Bool) : Int :=
  if use_seconds then (min_duration_threshold duration_seconds : Int)
  else (min_duration_threshold (duration_seconds * 1000) : Int)

/-- Embeds the inner accumulation loop of `merge_subtitles` (`while i < len(entries)`
at line 222).  Arguments mirror the loop state: `m` is `min_duration_threshold`,
`targetEnd` is `target_end_time`, `gs` is `current_group_start`, `texts` is
`current_group_texts`, `lastEnd` is `entries[i-1]["end"]` (the end of the last
consumed entry).  Returns the emitted merged entry as a `(start, end, text)`
triple together with the entries left for the outer loop. -/
def accumulate (m targetEnd gs : Int) :
    List SubtitleEntry → List String → Int → ((Int × Int × String) × List SubtitleEntry)
  | [], texts, lastEnd => ((gs, lastEnd, joinSpace texts), [])
  | n :: rest, texts, lastEnd =>
    if n.stop - n.start ≥ m then
      ((gs, lastEnd, joinSpace texts), n :: rest)
    else if n.stop ≥ targetEnd then
      ((gs, n.stop, joinSpace (texts ++ [n.text])), rest)
    else
      accumulate m targetEnd gs rest (texts ++ [n.text]) n.stop

/-- Embeds the outer loop of `merge_subtitles` (line 185): `d` is the scaled
`duration`, `m` is `min_duration_threshold`.  Emits `(start, end, text)`
triples; ids are attached afterwards, mirroring `"id": len(merged) + 1`. -/
def mergeCore (d m : Int) (l : List SubtitleEntry) : List (Int × Int × String) :=
  match l with
  | [] => []
  | e :: rest =>
    if e.stop - e.start ≥ d then
      (e.start, e.stop, e.text) :: mergeCore d m rest
    else if e.stop - e.start ≥ m then
      (e.start, e.stop, e.text) :: mergeCore d m rest
    else
      let r := accumulate m (e.start + d) e.start rest [e.text] e.stop
      r.1 :: mergeCore d m r.2
termination_by l.length
decreasing_by
  · simp only [List.length_cons]; omega
  · simp only [List.length_cons]; omega
  · have key : ∀ (m te gs : Int) (l : List SubtitleEntry) (ts : List String) (z : Int),
        (accumulate m te gs l ts z).2.length ≤ l.length := by
      intro m te gs l
      induction l with
      | nil => intro _ts _z; simp [accumulate]
      | cons n rest ih =>
        intro ts z
        simp only [accumulate]
        split
        · simp
        · split
          · simp
          · exact Nat.le_trans (ih _ _) (Nat.le_succ _)
    simp only [List.length_cons]
    exact Nat.lt_succ_of_le (key _ _ _ _ _ _)

/-- Fuel-indexed variant of `mergeCore`, used to express termination of the
outer loop: each iteration consumes at least one input entry, so fuel equal
to the input length always suffices. -/
def mergeCoreFuel (d m : Int) : Nat → List SubtitleEntry → Option (List (Int × Int × String))
  | _, [] => some []
  | 0, _ :: _ => none
  | fuel + 1, e :: rest =>
    if e.stop - e.start ≥ d then
      (mergeCoreFuel d m fuel rest).map (fun out => (e.start, e.stop, e.text) :: out)
    else if e.stop - e.start ≥ m then
      (mergeCoreFuel d m fuel rest).map (fun out => (e.start, e.stop, e.text) :: out)
    else
      (mergeCoreFuel d m fuel (accumulate m (e.start + d) e.start rest [e.text] e.stop).2).map
        (fun out => (accumulate m (e.start + d) e.start rest [e.text] e.stop).1 :: out)

/-- Attaches output ids: the source constructs each merged entry with
`"id": len(merged) + 1`, so the entry at (0-based) position `p` gets id
`p + 1`; `numberFrom k` numbers a list of triples starting at `k`. -/
def numberFrom (k : Nat) : List (Int × Int × String) → List SubtitleEntry
  | [] => []
  | (s, e, t) :: rest => ⟨k, s, e, t⟩ :: numberFrom (k + 1) rest

/-- Embeds `merge_subtitles(entries, duration_seconds, use_seconds)` from
`parser.py`. -/
def merge_subtitles (entries : List SubtitleEntry) (duration_seconds : Nat)
    (use_seconds : Bool) : List SubtitleEntry :=
  match entries with
  | [] => []
  | _ :: _ =>
    numberFrom 1
      (mergeCore (scaledDuration duration_seconds use_seconds)
        (scaledThreshold duration_seconds use_seconds) entries)

/-- Embeds the loop body of the `isinstance(data, list)` branch of
`chunk_json_content` in `chunk2tokens.py`.  `tokI x` abstracts
`count_tokens(json.dumps(item))` for a single element and `tokL c` abstracts
`count_tokens(json.dumps(test_chunk))` for a serialized chunk; both are
arbitrary token-counting oracles.  `current` is `current_chunk`; the returned
list collects the chunks appended from this point on, including the final
`if current_chunk: chunks.append(current_chunk)`. -/
def chunkLoop (tokI : α → Nat) (tokL : List α → Nat) (mx : Nat) :
    List α → List α → List (List α)
  | [], current => if current.isEmpty then [] else [current]
  | item :: rest, current =>
    if tokI item > mx then
      (if current.isEmpty then [] else [current]) ++ [item] :: chunkLoop tokI tokL mx rest []
    else if tokL (current ++ [item]) > mx ∧ current.isEmpty = false then
      current :: chunkLoop tokI tokL mx rest [item]
    else
      chunkLoop tokI tokL mx rest (current ++ [item])

/-- Embeds the JSON-array branch of `chunk_json_content` (list input),
including the trailing `return chunks if chunks else [data]`. -/
def chunk_json_content (tokI : α → Nat) (tokL : List α → Nat) (mx : Nat)
    (data : List α) : List (List α) :=
  let chunks := chunkLoop tokI tokL mx data []
  if chunks.isEmpty then [data] else chunks

/-- Models Python's `\d` (a decimal digit) on the ASCII range used by SBV
timestamps. -/
def isDigitChar (c : Char) : Bool :=
  c.isDigit

/-- Models the greedy `(\d+)` step of `TIMESTAMP_PATTERN`: takes the maximal
leading run of digits. -/
def takeDigits : List Char → List Char × List Char
  | [] => ([], [])
  | c :: cs =>
    if isDigitChar c then
      let p := takeDigits cs
      (c :: p.1, p.2)
    else ([], c :: cs)

/-- Models a `\d{n}` step of `TIMESTAMP_PATTERN`: takes exactly `n` characters,
all of which must be digits. -/
def takeExact : Nat → List Char → Option (List Char × List Char)
  | 0, cs => some ([], cs)
  | _ + 1, [] => none
  | n + 1, c :: cs =>
    if isDigitChar c then (takeExact n cs).map (fun p => (c :: p.1, p.2)) else none

/-- Models a literal-character step of `TIMESTAMP_PATTERN`. -/
def expectChar (ch : Char) : List Char → Option (List Char)
  | [] => none
  | c :: cs => if c = ch then some cs else none

/-- Models Python's `int` on a captured digit group (e.g. `int("05") = 5`). -/
def digitsToNat (ds : List Char) : Nat :=
  ds.foldl (fun a c => a * 10 + (c.toNat - 48)) 0

/-- Matches one side of `TIMESTAMP_PATTERN`, i.e. `(\d+):(\d{2}):(\d{2})\.(\d{3})`,
returning the four captured groups as numbers together with the unconsumed
suffix. -/
def matchSide (cs : List Char) : Option ((Nat × Nat × Nat × Nat) × List Char) :=
  let p := takeDigits cs
  if p.1 = [] then none else
  match expectChar ':' p.2 with
  | none => none
  | some r2 =>
  match takeExact 2 r2 with
  | none => none
  | some (m, r3) =>
  match expectChar ':' r3 with
  | none => none
  | some r4 =>
  match takeExact 2 r4 with
  | none => none
  | some (s, r5) =>
  match expectChar '.' r5 with
  | none => none
  | some r6 =>
  match takeExact 3 r6 with
  | none => none
  | some (ms, r7) => some ((digitsToNat p.1, digitsToNat m, digitsToNat s, digitsToNat ms), r7)

/-- Models `TIMESTAMP_PATTERN.match` on an already-stripped string: the full
anchored pattern `^(\d+):(\d{2}):(\d{2})\.(\d{3}),(\d+):(\d{2}):(\d{2})\.(\d{3})$`,
returning the two sides' captured groups on success. -/
def matchTimestamp (str : String) :
    Option ((Nat × Nat × Nat × Nat) × (Nat × Nat × Nat × Nat)) :=
  match matchSide str.data with
  | none => none
  | some (a, r) =>
  match expectChar ',' r with
  | none => none
  | some r2 =>
  match matchSide r2 with
  | none => none
  | some (b, r3) => if r3 = [] then some (a, b) else none

/-- Models Python's `str.strip()` on a character list: drop whitespace from
both ends. -/
def pyStripList (l : List Char) : List Char :=
  ((l.dropWhile Char.isWhitespace).reverse.dropWhile Char.isWhitespace).reverse

/-- Models Python's `str.strip()`. -/
def pyStrip (s : String) : String :=
  ⟨pyStripList s.data⟩

/-- Embeds `parse_timestamp` from `parser.py`: strip the input, match it
against `TIMESTAMP_PATTERN`, and on success return
`((h*3600 + m*60 + s)*1000 + ms)` for each side; `none` models the raised
`ValueError` (FormatError). -/
def parse_timestamp (timestamp : String) : Option (Nat × Nat) :=
  match matchTimestamp (pyStrip timestamp) with
  | none => none
  | some ((h1, m1, s1, ms1), (h2, m2, s2, ms2)) =>
    some ((h1 * 3600 + m1 * 60 + s1) * 1000 + ms1,
          (h2 * 3600 + m2 * 60 + s2) * 1000 + ms2)

/-- Written from the spec's wording for the timestamp format (refinement
counterpart of `matchTimestamp`): the stripped text decomposes as
`H:MM:SS.mmm,H:MM:SS.mmm` with hours a nonempty digit run, minutes and
seconds exactly two digits, and milliseconds exactly three digits. -/
def SpecDecomp (str : String) (h1 m1 s1 ms1 h2 m2 s2 ms2 : List Char) : Prop :=
  str.data =
      h1 ++ ':' :: (m1 ++ ':' :: (s1 ++ '.' :: (ms1 ++
        ',' :: (h2 ++ ':' :: (m2 ++ ':' :: (s2 ++ '.' :: ms2)))))) ∧
    h1 ≠ [] ∧ (∀ c ∈ h1, isDigitChar c = true) ∧
    m1.length = 2 ∧ (∀ c ∈ m1, isDigitChar c = true) ∧
    s1.length = 2 ∧ (∀ c ∈ s1, isDigitChar c = true) ∧
    ms1.length = 3 ∧ (∀ c ∈ ms1, isDigitChar c = true) ∧
    h2 ≠ [] ∧ (∀ c ∈ h2, isDigitChar c = true) ∧
    m2.length = 2 ∧ (∀ c ∈ m2, isDigitChar c = true) ∧
    s2.length = 2 ∧ (∀ c ∈ s2, isDigitChar c = true) ∧
    ms2.length = 3 ∧ (∀ c ∈ ms2, isDigitChar c = true)

/-- The spec's timestamp pattern `H:MM:SS.mmm,H:MM:SS.mmm` as a predicate on
a string. -/
def TimestampSpecPattern (str : String) : Prop :=
  ∃ h1 m1 s1 ms1 h2 m2 s2 ms2, SpecDecomp str h1 m1 s1 ms1 h2 m2 s2 ms2

/-- Models Python's `round(n / 1000)` for a natural `n`: round half to even
(banker's rounding), as applied by `parse_sbv` when `round_to_seconds`. -/
def roundDiv1000 (n : Nat) : Nat :=
  if n % 1000 < 500 then n / 1000
  else if n % 1000 = 500 then
    (if (n / 1000) % 2 = 0 then n / 1000 else n / 1000 + 1)
  else n / 1000 + 1

/-- Embeds the text-collection loop of `parse_sbv` (line 121): consume lines
until an empty line or another timestamp line, collecting each consumed
line stripped.  Returns the collected text lines and the remaining lines. -/
def collectText : List String → List String × List String
  | [] => ([], [])
  | ln :: rest =>
    let st := pyStrip ln
    if st.data = [] ∨ (matchTimestamp st).isSome then
      ([], ln :: rest)
    else
      let p := collectText rest
      (st :: p.1, p.2)

/-- Embeds the outer line-scanning loop of `parse_sbv` (line 105).
`entryId` carries the running `entry_id`; `none` models an uncaught
`ValueError` escaping from `parse_timestamp`. -/
def parseSbvGo (round_to_seconds : Bool) (entryId : Nat) (lines : List String) :
    Option (List SubtitleEntry) :=
  match lines with
  | [] => some []
  | ln :: rest =>
    let line := pyStrip ln
    if line.data = [] then
      parseSbvGo round_to_seconds entryId rest
    else if (matchTimestamp line).isSome then
      match parse_timestamp line with
      | none => none
      | some (startMs, endMs) =>
        let p := collectText rest
        let text := pyStrip ⟨(joinSpace p.1).data⟩
        let startTime : Int := if round_to_seconds then roundDiv1000 startMs else startMs
        let endTime : Int := if round_to_seconds then roundDiv1000 endMs else endMs
        (parseSbvGo round_to_seconds (entryId + 1) p.2).map
          (fun es => ⟨entryId + 1, startTime, endTime, text.data.asString⟩ :: es)
    else
      parseSbvGo round_to_seconds entryId rest
termination_by lines.length
decreasing_by
  all_goals
    have key : ∀ ls : List String, (collectText ls).2.length ≤ ls.length := by
      intro ls
      induction ls with
      | nil => simp [collectText]
      | cons x xs ih =>
        simp only [collectText]
        split
        · simp
        · exact Nat.le_trans ih (Nat.le_succ _)
    simp only [List.length_cons]
    first
      | omega
      | exact Nat.lt_succ_of_le (key _)

/-- Embeds `parse_sbv(content, round_to_seconds)` from `parser.py`:
split the content on newlines and scan. -/
def parse_sbv (content : String) (round_to_seconds : Bool) :
    Option (List SubtitleEntry) :=
  parseSbvGo round_to_seconds 0 (content.splitOn "\n")

/-- Unfolding equation for `mergeCore` on a nonempty input. -/
theorem mergeCore_cons (d m : Int) (e : SubtitleEntry) (rest : List SubtitleEntry) :
    mergeCore d m (e :: rest) =
      if e.stop - e.start ≥ d then (e.start, e.stop, e.text) :: mergeCore d m rest
      else if e.stop - e.start ≥ m then (e.start, e.stop, e.text) :: mergeCore d m rest
      else
        (accumulate m (e.start + d) e.start rest [e.text] e.stop).1 ::
          mergeCore d m (accumulate m (e.start + d) e.start rest [e.text] e.stop).2 := by
  rw [mergeCore]

/-- Unfolding equation for `mergeCore` on the empty input. -/
theorem mergeCore_nil (d m : Int) : mergeCore d m [] = [] := by
  rw [mergeCore]

/-- The inner loop never hands back more entries than it received: the cursor
`i` never moves backwards. -/
theorem accumulate_length (m te gs : Int) :
    ∀ (l : List SubtitleEntry) (ts : List String) (z : Int),
      (accumulate m te gs l ts z).2.length ≤ l.length := by
  intro l
  induction l with
  | nil => intro _ts _z; simp [accumulate]
  | cons n rest ih =>
    intro ts z
    simp only [accumulate]
    split
    · simp
    · split
      · simp
      · exact Nat.le_trans (ih _ _) (Nat.le_succ _)

/-- Characterization of the inner loop: it consumes a prefix of its input,
emits a group starting at `gs` whose text is the accumulated texts followed
by the texts of the consumed entries, and leaves the rest. -/
theorem accumulate_spec (m te gs : Int) :
    ∀ (l : List SubtitleEntry) (ts : List String) (z : Int),
      ∃ consumed : List SubtitleEntry,
        consumed ++ (accumulate m te gs l ts z).2 = l ∧
        (accumulate m te gs l ts z).1.1 = gs ∧
        (accumulate m te gs l ts z).1.2.2 =
          joinSpace (ts ++ consumed.map SubtitleEntry.text) := by
  intro l
  induction l with
  | nil =>
    intro ts z
    exact ⟨[], by simp [accumulate]⟩
  | cons n rest ih =>
    intro ts z
    simp only [accumulate]
    split
    · exact ⟨[], by simp⟩
    · split
      · exact ⟨[n], by simp⟩
      · obtain ⟨consumed, hc, hgs, htext⟩ := ih (ts ++ [n.text]) n.stop
        exact ⟨n :: consumed, by simp [hc, hgs, htext]⟩

/-- How the inner loop can close a group: either the group's end time reached
the target end, or the input was exhausted, or the remaining entries start
with an entry at or above the merge threshold. -/
theorem accumulate_rem_cases (m te gs : Int) :
    ∀ (l : List SubtitleEntry) (ts : List String) (z : Int),
      te ≤ (accumulate m te gs l ts z).1.2.1 ∨
        (accumulate m te gs l ts z).2 = [] ∨
        ∃ n rest', (accumulate m te gs l ts z).2 = n :: rest' ∧ m ≤ n.stop - n.start := by
  intro l
  induction l with
  | nil => intro _ts _z; right; left; simp [accumulate]
  | cons n rest ih =>
    intro ts z
    simp only [accumulate]
    split
    · right; right; exact ⟨n, rest, rfl, by omega⟩
    · split
      · left; simpa using by omega
      · exact ih (ts ++ [n.text]) n.stop

/-- A long-enough entry is never consumed by the inner loop. -/
theorem accumulate_mem (m te gs : Int) :
    ∀ (l : List SubtitleEntry) (ts : List String) (z : Int) (e : SubtitleEntry),
      e ∈ l → m ≤ e.stop - e.start → e ∈ (accumulate m te gs l ts z).2 := by
  intro l
  induction l with
  | nil => intro _ts _z e he _; cases he
  | cons n rest ih =>
    intro ts z e he hm
    simp only [accumulate]
    split
    · exact he
    · rename_i hlt
      have hne : e ≠ n := by
        intro hEq
        subst hEq
        omega
      have herest : e ∈ rest := by
        rcases List.mem_cons.mp he with h | h
        · exact absurd h hne
        · exact h
      split
      · exact herest
      · exact ih _ _ e herest hm

/-- Unfolding of `joinSpace` on a list with at least two elements. -/
theorem joinSpace_cons_cons (t t2 : String) (rest : List String) :
    joinSpace (t :: t2 :: rest) = t ++ " " ++ joinSpace (t2 :: rest) := rfl

/-- Python's `" ".join` over a concatenation of two nonempty lists splits into
the two joins separated by one space. -/
theorem joinSpace_append (a b : List String) (ha : a ≠ []) (hb : b ≠ []) :
    joinSpace (a ++ b) = joinSpace a ++ " " ++ joinSpace b := by
  induction a with
  | nil => cases ha rfl
  | cons t ts ih =>
    cases ts with
    | nil =>
      cases b with
      | nil => cases hb rfl
      | cons u us => simp [joinSpace]
    | cons t2 ts2 =>
      have hih := ih (by simp)
      have h1 : (t :: t2 :: ts2) ++ b = t :: ((t2 :: ts2) ++ b) := rfl
      have h2 : (t2 :: ts2) ++ b = t2 :: (ts2 ++ b) := rfl
      rw [h1, h2, joinSpace_cons_cons, ← h2, hih, joinSpace_cons_cons]
      simp only [String.append_assoc]

/-- Joining the per-part joins of a partition into nonempty parts equals
joining the flattened list. -/
theorem joinSpace_parts (parts : List (List String)) (h : ∀ p ∈ parts, p ≠ []) :
    joinSpace (parts.map joinSpace) = joinSpace parts.flatten := by
  induction parts with
  | nil => simp [joinSpace]
  | cons p ps ih =>
    cases ps with
    | nil => simp [joinSpace]
    | cons q qs =>
      have hp : p ≠ [] := h p (by simp)
      have hqs : (q :: qs).flatten ≠ [] := by
        have hq : q ≠ [] := h q (by simp)
        cases q with
        | nil => cases hq rfl
        | cons x xs => simp
      have ihr : joinSpace ((q :: qs).map joinSpace) = joinSpace (q :: qs).flatten :=
        ih (fun r hr => h r (List.mem_cons_of_mem _ hr))
      have hmapne : (q :: qs).map joinSpace ≠ [] := by simp
      calc joinSpace ((p :: q :: qs).map joinSpace)
          = joinSpace (joinSpace p :: (q :: qs).map joinSpace) := by simp
        _ = joinSpace ([joinSpace p] ++ (q :: qs).map joinSpace) := by simp
        _ = joinSpace [joinSpace p] ++ " " ++ joinSpace ((q :: qs).map joinSpace) :=
            joinSpace_append _ _ (by simp) hmapne
        _ = joinSpace p ++ " " ++ joinSpace (q :: qs).flatten := by rw [ihr]; rfl
        _ = joinSpace (p ++ (q :: qs).flatten) := (joinSpace_append p _ hp hqs).symm
        _ = joinSpace ((p :: q :: qs).flatten) := by simp

/-- A partition into nonempty parts has no more parts than elements. -/
theorem parts_length_le {α : Type} (parts : List (List α)) (h : ∀ p ∈ parts, p ≠ []) :
    parts.length ≤ parts.flatten.length := by
  induction parts with
  | nil => simp
  | cons p ps ih =>
    have hp : p ≠ [] := h p (by simp)
    have h1 : 1 ≤ p.length := by
      cases p with
      | nil => cases hp rfl
      | cons x xs => simp
    have := ih (fun r hr => h r (List.mem_cons_of_mem _ hr))
    simp only [List.flatten, List.length_cons, List.length_append]
    omega

/-- Texts of a numbered output are the texts of the triples. -/
theorem numberFrom_map_text (k : Nat) (l : List (Int × Int × String)) :
    (numberFrom k l).map SubtitleEntry.text = l.map (fun x => x.2.2) := by
  induction l generalizing k with
  | nil => simp [numberFrom]
  | cons x rest ih =>
    obtain ⟨s, e, t⟩ := x
    simp [numberFrom, ih]

/-- Start times of a numbered output are the start times of the triples. -/
theorem numberFrom_map_start (k : Nat) (l : List (Int × Int × String)) :
    (numberFrom k l).map SubtitleEntry.start = l.map (fun x => x.1) := by
  induction l generalizing k with
  | nil => simp [numberFrom]
  | cons x rest ih =>
    obtain ⟨s, e, t⟩ := x
    simp [numberFrom, ih]

/-- Length of a numbered output. -/
theorem numberFrom_length (k : Nat) (l : List (Int × Int × String)) :
    (numberFrom k l).length = l.length := by
  induction l generalizing k with
  | nil => simp [numberFrom]
  | cons x rest ih =>
    obtain ⟨s, e, t⟩ := x
    simp [numberFrom, ih]

/-- Stripping the id from a numbered output recovers the triples. -/
theorem numberFrom_strip (k : Nat) (l : List (Int × Int × String)) :
    (numberFrom k l).map (fun e => (e.start, e.stop, e.text)) = l := by
  induction l generalizing k with
  | nil => simp [numberFrom]
  | cons x rest ih =>
    obtain ⟨s, e, t⟩ := x
    simp [numberFrom, ih]

/-- Membership in a numbered output, given membership among the triples. -/
theorem numberFrom_mem (l : List (Int × Int × String)) (x : Int × Int × String)
    (hx : x ∈ l) : ∀ k : Nat, ∃ j : Nat, (⟨j, x.1, x.2.1, x.2.2⟩ : SubtitleEntry) ∈ numberFrom k l := by
  induction l with
  | nil => cases hx
  | cons y rest ih =>
    intro k
    rcases List.mem_cons.mp hx with h | h
    · subst h
      exact ⟨k, by simp [numberFrom]⟩
    · obtain ⟨j, hj⟩ := ih h (k + 1)
      refine ⟨j, ?_⟩
      obtain ⟨s, e, t⟩ := y
      simp only [numberFrom]
      exact List.mem_cons_of_mem _ hj

/-- With fuel at least the input length, the fuel-indexed merge loop completes
and computes `mergeCore`: every outer iteration consumes at least one entry. -/
theorem mergeCore_fuel_complete (d m : Int) :
    ∀ (fuel : Nat) (l : List SubtitleEntry), l.length ≤ fuel →
      mergeCoreFuel d m fuel l = some (mergeCore d m l) := by
  intro fuel
  induction fuel with
  | zero =>
    intro l hl
    cases l with
    | nil => simp [mergeCoreFuel, mergeCore_nil]
    | cons e rest => simp at hl
  | succ fuel ih =>
    intro l hl
    cases l with
    | nil => simp [mergeCoreFuel, mergeCore_nil]
    | cons e rest =>
      simp only [List.length_cons] at hl
      rw [mergeCoreFuel, mergeCore_cons]
      split
      · rw [ih rest (by omega)]; rfl
      · split
        · rw [ih rest (by omega)]; rfl
        · have hlen := accumulate_length m (e.start + d) e.start rest [e.text] e.stop
          rw [ih ((accumulate m (e.start + d) e.start rest [e.text] e.stop).2) (by omega)]
          rfl

/-- Concrete evaluator for `mergeCore` through the fuel-indexed loop. -/
theorem mergeCore_eval (d m : Int) (l : List SubtitleEntry)
    (out : List (Int × Int × String))
    (h : mergeCoreFuel d m l.length l = some out) : mergeCore d m l = out := by
  have hc := mergeCore_fuel_complete d m l.length l (Nat.le_refl _)
  rw [hc] at h
  exact Option.some.inj h

/-- `merge_subtitles` always equals the numbered core output (the empty-input
guard is redundant for the empty list). -/
theorem merge_subtitles_eq (entries : List SubtitleEntry) (dsec : Nat) (u : Bool) :
    merge_subtitles entries dsec u =
      numberFrom 1 (mergeCore (scaledDuration dsec u) (scaledThreshold dsec u) entries) := by
  cases entries with
  | nil => simp [merge_subtitles, mergeCore_nil, numberFrom]
  | cons e rest => rfl

/-- The merge threshold never exceeds the scaled target duration. -/
theorem scaledThreshold_le (dsec : Nat) (u : Bool) :
    scaledThreshold dsec u ≤ scaledDuration dsec u := by
  cases u with
  | true =>
    have h : min_duration_threshold dsec ≤ dsec := by
      simp only [min_duration_threshold]; omega
    simp only [scaledThreshold, scaledDuration, if_true]
    exact_mod_cast h
  | false =>
    have h : min_duration_threshold (dsec * 1000) ≤ dsec * 1000 := by
      simp only [min_duration_threshold]; omega
    simp only [scaledThreshold, scaledDuration, if_false]
    exact_mod_cast h

/-- Partition lemma for the core merge loop: the input splits into contiguous
nonempty runs, one per output entry, and each output entry's text is the
space-join of its run's texts. -/
theorem mergeCore_partition (d m : Int) :
    ∀ (n : Nat) (l : List SubtitleEntry), l.length ≤ n →
      ∃ parts : List (List SubtitleEntry),
        parts.flatten = l ∧ (∀ p ∈ parts, p ≠ []) ∧
        (mergeCore d m l).map (fun x => x.2.2) =
          parts.map (fun p => joinSpace (p.map SubtitleEntry.text)) := by
  intro n
  induction n with
  | zero =>
    intro l hl
    have hnil : l = [] := List.length_eq_zero.mp (Nat.le_zero.mp hl)
    subst hnil
    exact ⟨[], by simp [mergeCore_nil]⟩
  | succ n ih =>
    intro l hl
    cases l with
    | nil => exact ⟨[], by simp [mergeCore_nil]⟩
    | cons e rest =>
      simp only [List.length_cons] at hl
      rw [mergeCore_cons]
      split
      · obtain ⟨parts, hflat, hne, hmap⟩ := ih rest (by omega)
        refine ⟨[e] :: parts, by simp [hflat], ?_, ?_⟩
        · intro p hp
          rcases List.mem_cons.mp hp with h | h
          · subst h; simp
          · exact hne p h
        · simp only [List.map_cons, hmap]
          rfl
      · split
        · obtain ⟨parts, hflat, hne, hmap⟩ := ih rest (by omega)
          refine ⟨[e] :: parts, by simp [hflat], ?_, ?_⟩
          · intro p hp
            rcases List.mem_cons.mp hp with h | h
            · subst h; simp
            · exact hne p h
          · simp only [List.map_cons, hmap]
            rfl
        · obtain ⟨consumed, hc, hgs, htext⟩ :=
            accumulate_spec m (e.start + d) e.start rest [e.text] e.stop
          have hlen2 : (accumulate m (e.start + d) e.start rest [e.text] e.stop).2.length ≤ n := by
            have := accumulate_length m (e.start + d) e.start rest [e.text] e.stop
            omega
          obtain ⟨parts, hflat, hne, hmap⟩ :=
            ih (accumulate m (e.start + d) e.start rest [e.text] e.stop).2 hlen2
          refine ⟨(e :: consumed) :: parts, ?_, ?_, ?_⟩
          · simp only [List.flatten_cons, hflat, List.cons_append, hc]
          · intro p hp
            rcases List.mem_cons.mp hp with h | h
            · subst h; simp
            · exact hne p h
          · simp only [List.map_cons, hmap, htext]
            rfl

/-- An entry whose duration reaches the scaled target is emitted standalone
(start, end, text unchanged) by the core loop, wherever it occurs. -/
theorem mergeCore_mem_long (d m : Int) (hmd : m ≤ d) :
    ∀ (n : Nat) (l : List SubtitleEntry), l.length ≤ n →
      ∀ e ∈ l, d ≤ e.stop - e.start →
        (e.start, e.stop, e.text) ∈ mergeCore d m l := by
  intro n
  induction n with
  | zero =>
    intro l hl e he _
    have hnil : l = [] := List.length_eq_zero.mp (Nat.le_zero.mp hl)
    subst hnil
    cases he
  | succ n ih =>
    intro l hl e he hd
    cases l with
    | nil => cases he
    | cons x rest =>
      simp only [List.length_cons] at hl
      rw [mergeCore_cons]
      split
      · rcases List.mem_cons.mp he with h | h
        · subst h; exact List.mem_cons_self _ _
        · exact List.mem_cons_of_mem _ (ih rest (by omega) e h hd)
      · split
        · rcases List.mem_cons.mp he with h | h
          · subst h; omega
          · exact List.mem_cons_of_mem _ (ih rest (by omega) e h hd)
        · rename_i hx1 hx2
          have hne : e ≠ x := by
            intro hEq
            subst hEq
            omega
          have herest : e ∈ rest := by
            rcases List.mem_cons.mp he with h | h
            · exact absurd h hne
            · exact h
          have hmem2 : e ∈ (accumulate m (x.start + d) x.start rest [x.text] x.stop).2 :=
            accumulate_mem m (x.start + d) x.start rest [x.text] x.stop e herest (by omega)
          have hlen2 : (accumulate m (x.start + d) x.start rest [x.text] x.stop).2.length ≤ n := by
            have := accumulate_length m (x.start + d) x.start rest [x.text] x.stop
            omega
          exact List.mem_cons_of_mem _ (ih _ hlen2 e hmem2 hd)

/-- Every start time in the core output is the start time of some input
entry. -/
theorem mergeCore_start_mem (d m : Int) :
    ∀ (n : Nat) (l : List SubtitleEntry), l.length ≤ n →
      ∀ x ∈ mergeCore d m l, ∃ e ∈ l, x.1 = e.start := by
  intro n
  induction n with
  | zero =>
    intro l hl x hx
    have hnil : l = [] := List.length_eq_zero.mp (Nat.le_zero.mp hl)
    subst hnil
    rw [mergeCore_nil] at hx
    cases hx
  | succ n ih =>
    intro l hl x hx
    cases l with
    | nil => rw [mergeCore_nil] at hx; cases hx
    | cons e rest =>
      simp only [List.length_cons] at hl
      rw [mergeCore_cons] at hx
      split at hx
      · rcases List.mem_cons.mp hx with h | h
        · exact ⟨e, List.mem_cons_self _ _, by rw [h]⟩
        · obtain ⟨e2, he2, hx2⟩ := ih rest (by omega) x h
          exact ⟨e2, List.mem_cons_of_mem _ he2, hx2⟩
      · split at hx
        · rcases List.mem_cons.mp hx with h | h
          · exact ⟨e, List.mem_cons_self _ _, by rw [h]⟩
          · obtain ⟨e2, he2, hx2⟩ := ih rest (by omega) x h
            exact ⟨e2, List.mem_cons_of_mem _ he2, hx2⟩
        · obtain ⟨consumed, hc, hgs, _⟩ :=
            accumulate_spec m (e.start + d) e.start rest [e.text] e.stop
          rcases List.mem_cons.mp hx with h | h
          · exact ⟨e, List.mem_cons_self _ _, by rw [h, hgs]⟩
          · have hlen2 : (accumulate m (e.start + d) e.start rest [e.text] e.stop).2.length ≤ n := by
              have := accumulate_length m (e.start + d) e.start rest [e.text] e.stop
              omega
            obtain ⟨e2, he2, hx2⟩ := ih _ hlen2 x h
            have he2l : e2 ∈ rest := by
              rw [← hc]
              exact List.mem_append_right _ he2
            exact ⟨e2, List.mem_cons_of_mem _ he2l, hx2⟩

/-- An entry at or above the merge threshold is passed through standalone at
the head of the core loop. -/
theorem mergeCore_cons_of_ge_m (d m : Int) (e : SubtitleEntry)
    (rest : List SubtitleEntry) (hm : m ≤ e.stop - e.start) :
    mergeCore d m (e :: rest) = (e.start, e.stop, e.text) :: mergeCore d m rest := by
  rcases le_or_lt d (e.stop - e.start) with h | h
  · rw [mergeCore_cons, if_pos (by omega)]
  · rw [mergeCore_cons, if_neg (by omega), if_pos (by omega)]

/-- Core loop monotonicity: if input start times are pairwise non-decreasing,
so are output start times. -/
theorem mergeCore_pairwise (d m : Int) :
    ∀ (n : Nat) (l : List SubtitleEntry), l.length ≤ n →
      l.Pairwise (fun a b => a.start ≤ b.start) →
      (mergeCore d m l).Pairwise (fun x y => x.1 ≤ y.1) := by
  intro n
  induction n with
  | zero =>
    intro l hl _
    have hnil : l = [] := List.length_eq_zero.mp (Nat.le_zero.mp hl)
    subst hnil
    rw [mergeCore_nil]
    exact List.Pairwise.nil
  | succ n ih =>
    intro l hl hp
    cases l with
    | nil => rw [mergeCore_nil]; exact List.Pairwise.nil
    | cons e rest =>
      simp only [List.length_cons] at hl
      obtain ⟨hhead, htail⟩ := List.pairwise_cons.mp hp
      rw [mergeCore_cons]
      split
      · refine List.pairwise_cons.mpr ⟨?_, ih rest (by omega) htail⟩
        intro y hy
        obtain ⟨e2, he2, hy2⟩ := mergeCore_start_mem d m rest.length rest (Nat.le_refl _) y hy
        rw [hy2]
        exact hhead e2 he2
      · split
        · refine List.pairwise_cons.mpr ⟨?_, ih rest (by omega) htail⟩
          intro y hy
          obtain ⟨e2, he2, hy2⟩ := mergeCore_start_mem d m rest.length rest (Nat.le_refl _) y hy
          rw [hy2]
          exact hhead e2 he2
        · obtain ⟨consumed, hc, hgs, _⟩ :=
            accumulate_spec m (e.start + d) e.start rest [e.text] e.stop
          have hsub : (accumulate m (e.start + d) e.start rest [e.text] e.stop).2.Sublist rest :=
            List.IsSuffix.sublist ⟨consumed, hc⟩
          have hlen2 : (accumulate m (e.start + d) e.start rest [e.text] e.stop).2.length ≤ n := by
            have := accumulate_length m (e.start + d) e.start rest [e.text] e.stop
            omega
          refine List.pairwise_cons.mpr ⟨?_, ih _ hlen2 (htail.sublist hsub)⟩
          intro y hy
          obtain ⟨e2, he2, hy2⟩ := mergeCore_start_mem d m _ _ (Nat.le_refl _) y hy
          rw [hy2, hgs]
          exact hhead e2 (hsub.mem he2)

/-- Stability invariant of the core output: whenever an output entry is
shorter than the merge threshold, the next output entry (if any) is at or
above the threshold.  Short entries are produced only by groups cut off by a
long successor or by input exhaustion. -/
theorem mergeCore_chain (d m : Int) (hmd : m ≤ d) :
    ∀ (n : Nat) (l : List SubtitleEntry), l.length ≤ n →
      (mergeCore d m l).Chain' (fun x y => x.2.1 - x.1 < m → m ≤ y.2.1 - y.1) := by
  intro n
  induction n with
  | zero =>
    intro l hl
    have hnil : l = [] := List.length_eq_zero.mp (Nat.le_zero.mp hl)
    subst hnil
    rw [mergeCore_nil]
    exact List.chain'_nil
  | succ n ih =>
    intro l hl
    cases l with
    | nil => rw [mergeCore_nil]; exact List.chain'_nil
    | cons e rest =>
      simp only [List.length_cons] at hl
      rw [mergeCore_cons]
      split
      · refine List.chain'_cons'.mpr ⟨?_, ih rest (by omega)⟩
        intro y _ hshort
        have hs : e.stop - e.start < m := hshort
        omega
      · split
        · refine List.chain'_cons'.mpr ⟨?_, ih rest (by omega)⟩
          intro y _ hshort
          have hs : e.stop - e.start < m := hshort
          omega
        · obtain ⟨consumed, hc, hgs, _⟩ :=
            accumulate_spec m (e.start + d) e.start rest [e.text] e.stop
          have hlen2 : (accumulate m (e.start + d) e.start rest [e.text] e.stop).2.length ≤ n := by
            have := accumulate_length m (e.start + d) e.start rest [e.text] e.stop
            omega
          refine List.chain'_cons'.mpr ⟨?_, ih _ hlen2⟩
          intro y hy hshort
          rcases accumulate_rem_cases m (e.start + d) e.start rest [e.text] e.stop with hte | hnil2 | hlong
          · rw [hgs] at hshort
            omega
          · rw [hnil2, mergeCore_nil] at hy
            cases hy
          · obtain ⟨nh, rest', hrem, hnh⟩ := hlong
            rw [hrem, mergeCore_cons_of_ge_m d m nh rest' hnh] at hy
            simp only [List.head?_cons, Option.mem_def, Option.some.injEq] at hy
            rw [← hy]
            simpa using hnh

/-- On a stable sequence (every entry shorter than the threshold is last or
followed by an entry at or above it), the core loop is the identity up to
the id projection: long-enough entries pass through, and each short entry
forms a singleton group emitted with its own bounds and text. -/
theorem mergeCore_of_stable (d m : Int) (hmd : m ≤ d) :
    ∀ (n : Nat) (l : List SubtitleEntry), l.length ≤ n →
      l.Chain' (fun a b => a.stop - a.start < m → m ≤ b.stop - b.start) →
      mergeCore d m l = l.map (fun e => (e.start, e.stop, e.text)) := by
  intro n
  induction n with
  | zero =>
    intro l hl _
    have hnil : l = [] := List.length_eq_zero.mp (Nat.le_zero.mp hl)
    subst hnil
    rw [mergeCore_nil]
    rfl
  | succ n ih =>
    intro l hl hchain
    cases l with
    | nil => rw [mergeCore_nil]; rfl
    | cons e rest =>
      simp only [List.length_cons] at hl
      obtain ⟨hhead, htail⟩ := List.chain'_cons'.mp hchain
      rw [mergeCore_cons]
      split
      · rw [ih rest (by omega) htail]
        rfl
      · split
        · rw [ih rest (by omega) htail]
          rfl
        · rename_i h1 h2
          cases rest with
          | nil =>
            simp only [accumulate, mergeCore_nil]
            rfl
          | cons nh rest' =>
            have hnh : m ≤ nh.stop - nh.start := by
              have := hhead nh (by simp)
              omega
            have hacc : accumulate m (e.start + d) e.start (nh :: rest') [e.text] e.stop =
                ((e.start, e.stop, joinSpace [e.text]), nh :: rest') := by
              simp only [accumulate]
              rw [if_pos (by omega)]
            rw [hacc]
            simp only [List.map_cons]
            rw [ih (nh :: rest') (by omega) htail]
            rfl

/-- The stability chain transfers from triples to numbered entries. -/
theorem numberFrom_chain (m : Int) :
    ∀ (k : Nat) (l : List (Int × Int × String)),
      l.Chain' (fun x y => x.2.1 - x.1 < m → m ≤ y.2.1 - y.1) →
      (numberFrom k l).Chain' (fun a b => a.stop - a.start < m → m ≤ b.stop - b.start) := by
  intro k l
  induction l generalizing k with
  | nil => intro _; exact List.chain'_nil
  | cons x rest ih =>
    intro hc
    obtain ⟨hhead, htail⟩ := List.chain'_cons'.mp hc
    obtain ⟨s, e, t⟩ := x
    simp only [numberFrom]
    refine List.chain'_cons'.mpr ⟨?_, ih (k + 1) htail⟩
    intro b hb hshort
    cases rest with
    | nil => simp [numberFrom] at hb
    | cons y rest2 =>
      obtain ⟨s2, e2, t2⟩ := y
      simp only [numberFrom, List.head?_cons, Option.mem_def, Option.some.injEq] at hb
      subst hb
      exact hhead (s2, e2, t2) (by simp) hshort

/-- Membership of a chunk in the output of the chunker loop is preserved when
the loop starts from any accumulator. -/
theorem chunkLoop_oversized {α : Type} (tokI : α → Nat) (tokL : List α → Nat) (mx : Nat) :
    ∀ (data current : List α) (x : α), x ∈ data → tokI x > mx →
      [x] ∈ chunkLoop tokI tokL mx data current := by
  intro data
  induction data with
  | nil => intro current x hx _; cases hx
  | cons item rest ih =>
    intro current x hx hbig
    rcases List.mem_cons.mp hx with h | h
    · subst h
      simp only [chunkLoop]
      rw [if_pos (by omega)]
      exact List.mem_append_right _ (List.mem_cons_self _ _)
    · simp only [chunkLoop]
      split
      · exact List.mem_append_right _ (List.mem_cons_of_mem _ (ih [] x h hbig))
      · split
        · exact List.mem_cons_of_mem _ (ih [item] x h hbig)
        · exact ih _ x h hbig

/-- Invariant of the chunker loop: assuming the running chunk respects the
budget whenever it holds at least two elements, every emitted chunk with at
least two elements respects the budget. -/
theorem chunkLoop_budget {α : Type} (tokI : α → Nat) (tokL : List α → Nat) (mx : Nat) :
    ∀ (data current : List α), (2 ≤ current.length → tokL current ≤ mx) →
      ∀ c ∈ chunkLoop tokI tokL mx data current, 2 ≤ c.length → tokL c ≤ mx := by
  intro data
  induction data with
  | nil =>
    intro current hinv c hc hlen
    simp only [chunkLoop] at hc
    split at hc
    · cases hc
    · rcases List.mem_cons.mp hc with h | h
      · subst h; exact hinv hlen
      · cases h
  | cons item rest ih =>
    intro current hinv c hc hlen
    simp only [chunkLoop] at hc
    split at hc
    · rcases List.mem_append.mp hc with h | h
      · split at h
        · cases h
        · rcases List.mem_cons.mp h with h2 | h2
          · subst h2; exact hinv hlen
          · cases h2
      · rcases List.mem_cons.mp h with h2 | h2
        · subst h2; simp at hlen
        · exact ih [] (by intro h3; simp at h3) c h2 hlen
    · split at hc
      · rcases List.mem_cons.mp hc with h | h
        · subst h; exact hinv hlen
        · exact ih [item] (by intro h3; simp at h3) c h hlen
      · rename_i hfit
        refine ih (current ++ [item]) ?_ c hc hlen
        intro hlen2
        rcases Decidable.em (current.isEmpty = true) with hemp | hemp
        · have hcur : current = [] := List.isEmpty_iff.mp hemp
          subst hcur
          simp at hlen2
        · have hB : current.isEmpty = false := by
            cases hcb : current.isEmpty
            · rfl
            · exact absurd hcb hemp
          by_contra hgt
          exact hfit ⟨by omega, hB⟩

/-- C1: Partition property of the merge engine: for every input sequence and
every positive target duration, the output of `merge_subtitles` partitions
the input into contiguous nonempty runs, the space-join of output texts
equals the space-join of input texts, every input entry's text contributes
to exactly one output entry, and the output is never longer than the
input. -/
theorem merge_subtitles_partition (es : List SubtitleEntry) (dsec : Nat) (u : Bool)
    (hd : 0 < dsec) :
    ∃ parts : List (List SubtitleEntry),
      parts.flatten = es ∧ (∀ p ∈ parts, p ≠ []) ∧
      (merge_subtitles es dsec u).map SubtitleEntry.text =
        parts.map (fun p => joinSpace (p.map SubtitleEntry.text)) ∧
      joinSpace ((merge_subtitles es dsec u).map SubtitleEntry.text) =
        joinSpace (es.map SubtitleEntry.text) ∧
      (merge_subtitles es dsec u).length ≤ es.length := by
  obtain ⟨parts, hflat, hne, hmap⟩ :=
    mergeCore_partition (scaledDuration dsec u) (scaledThreshold dsec u)
      es.length es (Nat.le_refl _)
  have htexts : (merge_subtitles es dsec u).map SubtitleEntry.text =
      parts.map (fun p => joinSpace (p.map SubtitleEntry.text)) := by
    rw [merge_subtitles_eq, numberFrom_map_text, hmap]
  refine ⟨parts, hflat, hne, htexts, ?_, ?_⟩
  · rw [htexts]
    have h1 : parts.map (fun p => joinSpace (p.map SubtitleEntry.text)) =
        (parts.map (fun p => p.map SubtitleEntry.text)).map joinSpace := by
      simp [List.map_map]
    rw [h1, joinSpace_parts]
    · congr 1
      rw [← List.map_flatten, hflat]
    · intro p hp
      obtain ⟨q, hq, rfl⟩ := List.mem_map.mp hp
      have hq2 := hne q hq
      simpa using hq2
  · have hlen1 : (merge_subtitles es dsec u).length = parts.length := by
      have h2 := congrArg List.length htexts
      simpa using h2
    have hlen2 : parts.length ≤ parts.flatten.length := parts_length_le parts hne
    rw [hlen1, ← hflat]
    exact hlen2

theorem merge_subtitles_partition_witness :
    0 < 10 ∧
    ∃ parts : List (List SubtitleEntry),
      parts.flatten = [⟨1, 0, 5000, "First"⟩, ⟨2, 5000, 10000, "Second"⟩] ∧
      (∀ p ∈ parts, p ≠ []) ∧
      (merge_subtitles [⟨1, 0, 5000, "First"⟩, ⟨2, 5000, 10000, "Second"⟩] 10 false).map
          SubtitleEntry.text =
        parts.map (fun p => joinSpace (p.map SubtitleEntry.text)) ∧
      joinSpace ((merge_subtitles [⟨1, 0, 5000, "First"⟩, ⟨2, 5000, 10000, "Second"⟩] 10
            false).map SubtitleEntry.text) =
        joinSpace (([⟨1, 0, 5000, "First"⟩, ⟨2, 5000, 10000, "Second"⟩] :
            List SubtitleEntry).map SubtitleEntry.text) ∧
      (merge_subtitles [⟨1, 0, 5000, "First"⟩, ⟨2, 5000, 10000, "Second"⟩] 10 false).length ≤
        ([⟨1, 0, 5000, "First"⟩, ⟨2, 5000, 10000, "Second"⟩] : List SubtitleEntry).length :=
  ⟨by decide, merge_subtitles_partition _ 10 false (by decide)⟩

/-- C6: Monotonicity: when input start times are non-decreasing, the start
times of `merge_subtitles` output are non-decreasing in output order. -/
theorem merge_subtitles_monotone (es : List SubtitleEntry) (dsec : Nat) (u : Bool)
    (hd : 0 < dsec)
    (hsorted : List.Pairwise (fun a b => a ≤ b) (es.map SubtitleEntry.start)) :
    List.Pairwise (fun a b => a ≤ b)
      ((merge_subtitles es dsec u).map SubtitleEntry.start) := by
  rw [merge_subtitles_eq, numberFrom_map_start]
  have hs2 : es.Pairwise (fun a b => a.start ≤ b.start) := List.pairwise_map.mp hsorted
  have hcore := mergeCore_pairwise (scaledDuration dsec u) (scaledThreshold dsec u)
    es.length es (Nat.le_refl _) hs2
  exact List.pairwise_map.mpr hcore

theorem merge_subtitles_monotone_witness :
    (0 < 3 ∧
      List.Pairwise (fun a b => a ≤ b)
        (([⟨1, 0, 1, "a"⟩, ⟨2, 1, 2, "b"⟩, ⟨3, 2, 9, "c"⟩] :
            List SubtitleEntry).map SubtitleEntry.start)) ∧
    List.Pairwise (fun a b => a ≤ b)
      ((merge_subtitles [⟨1, 0, 1, "a"⟩, ⟨2, 1, 2, "b"⟩, ⟨3, 2, 9, "c"⟩] 3 true).map
        SubtitleEntry.start) :=
  ⟨⟨by decide, by decide⟩,
    merge_subtitles_monotone _ 3 true (by decide) (by decide)⟩

/-- C4: an input entry whose duration reaches the scaled target duration is
always emitted standalone by `merge_subtitles`, with start, end and text
unchanged and only the id renumbered, wherever it occurs in the input —
including while a merge group is being accumulated. -/
theorem merge_subtitles_passthrough (es : List SubtitleEntry) (dsec : Nat) (u : Bool)
    (hd : 0 < dsec) (e : SubtitleEntry) (he : e ∈ es)
    (hlong : scaledDuration dsec u ≤ e.stop - e.start) :
    ∃ k, (⟨k, e.start, e.stop, e.text⟩ : SubtitleEntry) ∈ merge_subtitles es dsec u := by
  have hmem := mergeCore_mem_long (scaledDuration dsec u) (scaledThreshold dsec u)
    (scaledThreshold_le dsec u) es.length es (Nat.le_refl _) e he hlong
  rw [merge_subtitles_eq]
  obtain ⟨j, hj⟩ := numberFrom_mem _ (e.start, e.stop, e.text) hmem 1
  exact ⟨j, hj⟩

theorem merge_subtitles_passthrough_witness :
    (0 < 10 ∧ (⟨2, 5, 16, "Long"⟩ : SubtitleEntry) ∈
        ([⟨1, 0, 5, "a"⟩, ⟨2, 5, 16, "Long"⟩, ⟨3, 16, 17, "b"⟩] : List SubtitleEntry) ∧
      scaledDuration 10 true ≤ (16 : Int) - 5) ∧
    ∃ k, (⟨k, 5, 16, "Long"⟩ : SubtitleEntry) ∈
      merge_subtitles [⟨1, 0, 5, "a"⟩, ⟨2, 5, 16, "Long"⟩, ⟨3, 16, 17, "b"⟩] 10 true :=
  ⟨⟨by decide, by decide, by decide⟩,
    merge_subtitles_passthrough _ 10 true (by decide) ⟨2, 5, 16, "Long"⟩ (by decide)
      (by decide)⟩

/-- C2: Idempotence of merge: re-merging the output of `merge_subtitles` with
the same duration and unit flag returns it unchanged — identical ids, starts,
ends and texts. -/
theorem merge_subtitles_idempotent (es : List SubtitleEntry) (dsec : Nat) (u : Bool)
    (hd : 0 < dsec)
    (hsorted : List.Pairwise (fun a b => a ≤ b) (es.map SubtitleEntry.start)) :
    merge_subtitles (merge_subtitles es dsec u) dsec u = merge_subtitles es dsec u := by
  have hmd := scaledThreshold_le dsec u
  have hchain := numberFrom_chain (scaledThreshold dsec u) 1
    (mergeCore (scaledDuration dsec u) (scaledThreshold dsec u) es)
    (mergeCore_chain (scaledDuration dsec u) (scaledThreshold dsec u) hmd
      es.length es (Nat.le_refl _))
  have hid := mergeCore_of_stable (scaledDuration dsec u) (scaledThreshold dsec u) hmd
    (numberFrom 1 (mergeCore (scaledDuration dsec u) (scaledThreshold dsec u) es)).length
    (numberFrom 1 (mergeCore (scaledDuration dsec u) (scaledThreshold dsec u) es))
    (Nat.le_refl _) hchain
  calc merge_subtitles (merge_subtitles es dsec u) dsec u
      = numberFrom 1 (mergeCore (scaledDuration dsec u) (scaledThreshold dsec u)
          (numberFrom 1 (mergeCore (scaledDuration dsec u) (scaledThreshold dsec u) es))) := by
        rw [merge_subtitles_eq es dsec u, merge_subtitles_eq]
    _ = numberFrom 1 (mergeCore (scaledDuration dsec u) (scaledThreshold dsec u) es) := by
        rw [hid, numberFrom_strip]
    _ = merge_subtitles es dsec u := (merge_subtitles_eq es dsec u).symm

theorem merge_subtitles_idempotent_witness :
    (0 < 10 ∧
      List.Pairwise (fun a b => a ≤ b)
        (([⟨1, 0, 3, "One"⟩, ⟨2, 3, 6, "Two"⟩, ⟨3, 6, 10, "Three"⟩] :
            List SubtitleEntry).map SubtitleEntry.start)) ∧
    merge_subtitles
        (merge_subtitles [⟨1, 0, 3, "One"⟩, ⟨2, 3, 6, "Two"⟩, ⟨3, 6, 10, "Three"⟩] 10 true)
        10 true =
      merge_subtitles [⟨1, 0, 3, "One"⟩, ⟨2, 3, 6, "Two"⟩, ⟨3, 6, 10, "Three"⟩] 10 true :=
  ⟨⟨by decide, by decide⟩,
    merge_subtitles_idempotent _ 10 true (by decide) (by decide)⟩

/-- C3 counterexample: not every output entry of `merge_subtitles` has
duration at least the scaled target duration.  A single short entry is
emitted as its own group with its original bounds: for input
`[{id 1, start 0, end 1, "a"}]` and 10-second target (seconds mode), the
output entry has duration 1 < 10. -/
theorem merge_duration_counterexample :
    ¬ (∀ e ∈ merge_subtitles [⟨1, 0, 1, "a"⟩] 10 true,
        scaledDuration 10 true ≤ e.stop - e.start) := by
  intro h
  have heval : merge_subtitles [⟨1, 0, 1, "a"⟩] 10 true = [⟨1, 0, 1, "a"⟩] := by
    rw [merge_subtitles_eq,
      mergeCore_eval (scaledDuration 10 true) (scaledThreshold 10 true)
        [⟨1, 0, 1, "a"⟩] [((0 : Int), (1 : Int), "a")] (by decide)]
    rfl
  have hle := h ⟨1, 0, 1, "a"⟩ (by rw [heval]; exact List.mem_singleton_self _)
  simp [scaledDuration] at hle

/-- C3 amended: output entries of `merge_subtitles` need not reach the scaled
target duration; instead, every output entry shorter than the merge threshold
`min_duration_threshold` is either the last output entry or immediately
followed by one whose duration is at least the threshold — which is what
places the whole output in pass-through or unchanged-singleton behaviour on a
repeated merge. -/
theorem merge_subtitles_stable (es : List SubtitleEntry) (dsec : Nat) (u : Bool)
    (hd : 0 < dsec) :
    (merge_subtitles es dsec u).Chain'
      (fun a b => a.stop - a.start < scaledThreshold dsec u →
        scaledThreshold dsec u ≤ b.stop - b.start) := by
  rw [merge_subtitles_eq]
  exact numberFrom_chain (scaledThreshold dsec u) 1 _
    (mergeCore_chain (scaledDuration dsec u) (scaledThreshold dsec u)
      (scaledThreshold_le dsec u) es.length es (Nat.le_refl _))

theorem merge_subtitles_stable_witness :
    0 < 12 ∧
    (merge_subtitles [⟨1, 0, 2, "a"⟩, ⟨2, 2, 10, "b"⟩, ⟨3, 10, 11, "c"⟩] 12 true).Chain'
      (fun a b => a.stop - a.start < scaledThreshold 12 true →
        scaledThreshold 12 true ≤ b.stop - b.start) :=
  ⟨by decide, merge_subtitles_stable _ 12 true (by decide)⟩

/-- C5: Threshold exactness: for a 12-second target in seconds mode the merge
threshold is `round(2*12/3) = 8`, and an entry of duration exactly 8 is
passed through unmerged — both at the head of the input (the source test's
example) and when encountered while a merge group is accumulating, since
threshold comparisons are `>=`. -/
theorem merge_threshold_exact :
    min_duration_threshold 12 = 8 ∧
    merge_subtitles [⟨1, 0, 8, "At threshold"⟩, ⟨2, 8, 15, "Next"⟩] 12 true =
      [⟨1, 0, 8, "At threshold"⟩, ⟨2, 8, 15, "Next"⟩] ∧
    merge_subtitles [⟨1, 0, 2, "a"⟩, ⟨2, 2, 10, "b"⟩, ⟨3, 10, 11, "c"⟩] 12 true =
      [⟨1, 0, 2, "a"⟩, ⟨2, 2, 10, "b"⟩, ⟨3, 10, 11, "c"⟩] := by
  refine ⟨rfl, ?_, ?_⟩
  · rw [merge_subtitles_eq,
      mergeCore_eval (scaledDuration 12 true) (scaledThreshold 12 true)
        [⟨1, 0, 8, "At threshold"⟩, ⟨2, 8, 15, "Next"⟩]
        [((0 : Int), (8 : Int), "At threshold"), ((8 : Int), (15 : Int), "Next")]
        (by decide)]
    rfl
  · rw [merge_subtitles_eq,
      mergeCore_eval (scaledDuration 12 true) (scaledThreshold 12 true)
        [⟨1, 0, 2, "a"⟩, ⟨2, 2, 10, "b"⟩, ⟨3, 10, 11, "c"⟩]
        [((0 : Int), (2 : Int), "a"), ((2 : Int), (10 : Int), "b"),
          ((10 : Int), (11 : Int), "c")]
        (by decide)]
    rfl

/-- C10: `merge_subtitles` terminates on every finite input: fuel equal to
the input length always suffices for the fuel-indexed outer loop (each
iteration consumes at least one entry), and the inner accumulation loop
never moves the cursor backwards. -/
theorem merge_subtitles_terminates (d m : Int) (fuel : Nat) (l : List SubtitleEntry)
    (hfuel : l.length ≤ fuel) :
    mergeCoreFuel d m fuel l = some (mergeCore d m l) ∧
    ∀ (te gs : Int) (ts : List String) (z : Int),
      (accumulate m te gs l ts z).2.length ≤ l.length :=
  ⟨mergeCore_fuel_complete d m fuel l hfuel,
    fun te gs ts z => accumulate_length m te gs l ts z⟩

theorem merge_subtitles_terminates_witness :
    (([⟨1, 0, 1, "a"⟩, ⟨2, 1, 2, "b"⟩] : List SubtitleEntry).length ≤ 2) ∧
    (mergeCoreFuel 10 7 2 [⟨1, 0, 1, "a"⟩, ⟨2, 1, 2, "b"⟩] =
        some (mergeCore 10 7 [⟨1, 0, 1, "a"⟩, ⟨2, 1, 2, "b"⟩]) ∧
      ∀ (te gs : Int) (ts : List String) (z : Int),
        (accumulate 7 te gs [⟨1, 0, 1, "a"⟩, ⟨2, 1, 2, "b"⟩] ts z).2.length ≤
          ([⟨1, 0, 1, "a"⟩, ⟨2, 1, 2, "b"⟩] : List SubtitleEntry).length) :=
  ⟨by decide, merge_subtitles_terminates 10 7 2 _ (by decide)⟩

/-- The chunker loop returns no chunks only when it has nothing to emit. -/
theorem chunkLoop_ne_nil {α : Type} (tokI : α → Nat) (tokL : List α → Nat) (mx : Nat) :
    ∀ (data current : List α), data ≠ [] ∨ current ≠ [] →
      chunkLoop tokI tokL mx data current ≠ [] := by
  intro data
  induction data with
  | nil =>
    intro current h
    rcases h with h | h
    · cases h rfl
    · simp only [chunkLoop]
      rw [if_neg (by simpa using h)]
      simp
  | cons item rest ih =>
    intro current _
    simp only [chunkLoop]
    split
    · intro hcontra
      have := List.append_eq_nil.mp hcontra
      simp at this
    · split
      · simp
      · exact ih (current ++ [item]) (Or.inr (by simp))

/-- C8: Chunker greedy bin-packing, for JSON-array input and arbitrary
token-counting oracles with a positive budget: every element whose own token
count exceeds the budget is emitted as its own singleton chunk, and every
output chunk holding two or more elements has a serialized token count within
the budget. -/
theorem chunk_json_content_spec {α : Type} (tokI : α → Nat) (tokL : List α → Nat)
    (mx : Nat) (data : List α) (hmx : 0 < mx) :
    (∀ x ∈ data, tokI x > mx → [x] ∈ chunk_json_content tokI tokL mx data) ∧
    (∀ c ∈ chunk_json_content tokI tokL mx data, 2 ≤ c.length → tokL c ≤ mx) := by
  constructor
  · intro x hx hbig
    have hmem := chunkLoop_oversized tokI tokL mx data [] x hx hbig
    have hne : chunkLoop tokI tokL mx data [] ≠ [] := List.ne_nil_of_mem hmem
    simp only [chunk_json_content]
    rw [if_neg (by simpa using hne)]
    exact hmem
  · intro c hc hlen
    simp only [chunk_json_content] at hc
    split at hc
    · rename_i hemp
      cases data with
      | nil =>
        simp only [List.mem_singleton] at hc
        subst hc
        simp at hlen
      | cons y ys =>
        have := chunkLoop_ne_nil tokI tokL mx (y :: ys) [] (Or.inl (by simp))
        exact absurd (List.isEmpty_iff.mp hemp) this
    · exact chunkLoop_budget tokI tokL mx data [] (by intro h; simp at h) c hc hlen

theorem chunk_json_content_spec_witness :
    0 < 5 ∧
    ((∀ x ∈ [1, 2, 7], (fun n : Nat => n) x > 5 →
        [x] ∈ chunk_json_content (fun n : Nat => n) (fun l => l.sum) 5 [1, 2, 7]) ∧
      (∀ c ∈ chunk_json_content (fun n : Nat => n) (fun l => l.sum) 5 [1, 2, 7],
        2 ≤ c.length → c.sum ≤ 5)) :=
  ⟨by decide, chunk_json_content_spec (fun n : Nat => n) (fun l => l.sum) 5 [1, 2, 7]
    (by decide)⟩

/-- Soundness of the greedy digit scanner: it splits its input, takes only
digits, and stops at the first non-digit. -/
theorem takeDigits_spec :
    ∀ cs : List Char,
      (takeDigits cs).1 ++ (takeDigits cs).2 = cs ∧
      (∀ c ∈ (takeDigits cs).1, isDigitChar c = true) ∧
      (∀ c cs', (takeDigits cs).2 = c :: cs' → isDigitChar c = false) := by
  intro cs
  induction cs with
  | nil =>
    refine ⟨rfl, ?_, ?_⟩
    · intro c hc; cases hc
    · intro c cs' h; cases h
  | cons c cs ih =>
    obtain ⟨hsplit, hdig, hstop⟩ := ih
    by_cases hc : isDigitChar c = true
    · simp only [takeDigits, if_pos hc]
      refine ⟨by simpa using hsplit, ?_, by simpa using hstop⟩
      intro c2 hc2
      rcases List.mem_cons.mp hc2 with h | h
      · subst h; exact hc
      · exact hdig c2 h
    · simp only [takeDigits, if_neg hc]
      refine ⟨rfl, ?_, ?_⟩
      · intro c2 hc2; cases hc2
      · intro c2 cs' h
        injection h with h1 _
        subst h1
        simpa using hc

/-- Completeness of the greedy digit scanner on a decomposed input: a digit
run followed by a non-digit (or nothing) is taken exactly. -/
theorem takeDigits_exact :
    ∀ (d rest : List Char), (∀ c ∈ d, isDigitChar c = true) →
      (∀ c cs', rest = c :: cs' → isDigitChar c = false) →
      takeDigits (d ++ rest) = (d, rest) := by
  intro d
  induction d with
  | nil =>
    intro rest _ hstop
    cases rest with
    | nil => rfl
    | cons c cs' =>
      have hcf := hstop c cs' rfl
      simp [takeDigits, hcf]
  | cons c d' ih =>
    intro rest hdig hstop
    have hc : isDigitChar c = true := hdig c (by simp)
    have hi := ih rest (fun x hx => hdig x (List.mem_cons_of_mem _ hx)) hstop
    simp only [List.cons_append, takeDigits, if_pos hc, List.append_eq, hi]

/-- Soundness of the fixed-width digit scanner. -/
theorem takeExact_spec :
    ∀ (n : Nat) (cs d r : List Char), takeExact n cs = some (d, r) →
      cs = d ++ r ∧ d.length = n ∧ ∀ c ∈ d, isDigitChar c = true := by
  intro n
  induction n with
  | zero =>
    intro cs d r h
    simp only [takeExact, Option.some.injEq, Prod.mk.injEq] at h
    obtain ⟨h1, h2⟩ := h
    subst h1
    subst h2
    exact ⟨rfl, rfl, by intro c hc; cases hc⟩
  | succ n ih =>
    intro cs d r h
    cases cs with
    | nil => simp [takeExact] at h
    | cons c cs' =>
      simp only [takeExact] at h
      by_cases hc : isDigitChar c = true
      · rw [if_pos hc] at h
        cases h2 : takeExact n cs' with
        | none => rw [h2] at h; simp at h
        | some p =>
          obtain ⟨d', r'⟩ := p
          rw [h2] at h
          simp only [Option.map_some', Option.some.injEq, Prod.mk.injEq] at h
          obtain ⟨h3, h4⟩ := h
          obtain ⟨hsplit, hlen, hdig⟩ := ih cs' d' r' h2
          subst h4
          rw [← h3]
          refine ⟨by rw [hsplit]; rfl, by simp [hlen], ?_⟩
          intro x hx
          rcases List.mem_cons.mp hx with hh | hh
          · subst hh; exact hc
          · exact hdig x hh
      · rw [if_neg hc] at h
        cases h

/-- Completeness of the fixed-width digit scanner on a decomposed input. -/
theorem takeExact_exact :
    ∀ (d r : List Char), (∀ c ∈ d, isDigitChar c = true) →
      takeExact d.length (d ++ r) = some (d, r) := by
  intro d
  induction d with
  | nil => intro r _; rfl
  | cons c d' ih =>
    intro r hdig
    have hc : isDigitChar c = true := hdig c (by simp)
    have hi := ih r (fun x hx => hdig x (List.mem_cons_of_mem _ hx))
    simp only [List.length_cons, List.cons_append, takeExact, if_pos hc, List.append_eq, hi,
      Option.map_some']

/-- Soundness of the literal-character scanner. -/
theorem expectChar_spec (ch : Char) (cs r : List Char) (h : expectChar ch cs = some r) :
    cs = ch :: r := by
  cases cs with
  | nil => cases h
  | cons c cs' =>
    simp only [expectChar] at h
    by_cases hc : c = ch
    · rw [if_pos hc] at h
      injection h with h1
      rw [hc, h1]
    · rw [if_neg hc] at h
      cases h

/-- Completeness of the literal-character scanner. -/
theorem expectChar_exact (ch : Char) (r : List Char) : expectChar ch (ch :: r) = some r := by
  simp [expectChar]

/-- Soundness of the one-side matcher: a successful match exhibits the
`H:MM:SS.mmm` decomposition, with the captured values computed by
`digitsToNat`. -/
theorem matchSide_spec (cs : List Char) (a : Nat × Nat × Nat × Nat) (r : List Char)
    (hmatch : matchSide cs = some (a, r)) :
    ∃ h m s ms : List Char,
      cs = h ++ ':' :: (m ++ ':' :: (s ++ '.' :: (ms ++ r))) ∧
      h ≠ [] ∧ (∀ c ∈ h, isDigitChar c = true) ∧
      m.length = 2 ∧ (∀ c ∈ m, isDigitChar c = true) ∧
      s.length = 2 ∧ (∀ c ∈ s, isDigitChar c = true) ∧
      ms.length = 3 ∧ (∀ c ∈ ms, isDigitChar c = true) ∧
      a = (digitsToNat h, digitsToNat m, digitsToNat s, digitsToNat ms) := by
  simp only [matchSide] at hmatch
  by_cases hp : (takeDigits cs).1 = []
  · rw [if_pos hp] at hmatch; cases hmatch
  · rw [if_neg hp] at hmatch
    split at hmatch
    · cases hmatch
    · rename_i r2 h2
      split at hmatch
      · cases hmatch
      · rename_i m r3 h3
        split at hmatch
        · cases hmatch
        · rename_i r4 h4
          split at hmatch
          · cases hmatch
          · rename_i s r5 h5
            split at hmatch
            · cases hmatch
            · rename_i r6 h6
              split at hmatch
              · cases hmatch
              · rename_i ms r7 h7
                simp only [Option.some.injEq, Prod.mk.injEq] at hmatch
                obtain ⟨ha, hr⟩ := hmatch
                obtain ⟨e1, hdig1, _⟩ := takeDigits_spec cs
                have e2 : (takeDigits cs).2 = ':' :: r2 := expectChar_spec ':' _ r2 h2
                obtain ⟨e3, hmlen, hmdig⟩ := takeExact_spec 2 r2 m r3 h3
                have e4 : r3 = ':' :: r4 := expectChar_spec ':' _ r4 h4
                obtain ⟨e5, hslen, hsdig⟩ := takeExact_spec 2 r4 s r5 h5
                have e6 : r5 = '.' :: r6 := expectChar_spec '.' _ r6 h6
                obtain ⟨e7, hmslen, hmsdig⟩ := takeExact_spec 3 r6 ms r7 h7
                refine ⟨(takeDigits cs).1, m, s, ms, ?_, hp, hdig1, hmlen, hmdig,
                  hslen, hsdig, hmslen, hmsdig, ha.symm⟩
                conv_lhs => rw [← e1]
                rw [e2, e3, e4, e5, e6, e7, hr]

/-- Completeness of the one-side matcher on a decomposed input. -/
theorem matchSide_exact (h m s ms rest : List Char)
    (hh : h ≠ []) (hdh : ∀ c ∈ h, isDigitChar c = true)
    (hm : m.length = 2) (hdm : ∀ c ∈ m, isDigitChar c = true)
    (hs : s.length = 2) (hds : ∀ c ∈ s, isDigitChar c = true)
    (hms : ms.length = 3) (hdms : ∀ c ∈ ms, isDigitChar c = true) :
    matchSide (h ++ ':' :: (m ++ ':' :: (s ++ '.' :: (ms ++ rest)))) =
      some ((digitsToNat h, digitsToNat m, digitsToNat s, digitsToNat ms), rest) := by
  have htd : takeDigits (h ++ ':' :: (m ++ ':' :: (s ++ '.' :: (ms ++ rest)))) =
      (h, ':' :: (m ++ ':' :: (s ++ '.' :: (ms ++ rest)))) := by
    refine takeDigits_exact h _ hdh ?_
    intro c cs' hEq
    injection hEq with hc _
    subst hc
    decide
  have e1 : expectChar ':' (':' :: (m ++ ':' :: (s ++ '.' :: (ms ++ rest)))) =
      some (m ++ ':' :: (s ++ '.' :: (ms ++ rest))) := expectChar_exact _ _
  have e2 : takeExact 2 (m ++ ':' :: (s ++ '.' :: (ms ++ rest))) =
      some (m, ':' :: (s ++ '.' :: (ms ++ rest))) := by
    rw [← hm]; exact takeExact_exact m _ hdm
  have e3 : expectChar ':' (':' :: (s ++ '.' :: (ms ++ rest))) =
      some (s ++ '.' :: (ms ++ rest)) := expectChar_exact _ _
  have e4 : takeExact 2 (s ++ '.' :: (ms ++ rest)) =
      some (s, '.' :: (ms ++ rest)) := by
    rw [← hs]; exact takeExact_exact s _ hds
  have e5 : expectChar '.' ('.' :: (ms ++ rest)) = some (ms ++ rest) :=
    expectChar_exact _ _
  have e6 : takeExact 3 (ms ++ rest) = some (ms, rest) := by
    rw [← hms]; exact takeExact_exact ms _ hdms
  simp only [matchSide, htd, e1, e2, e3, e4, e5, e6, if_neg hh]

/-- Soundness of the full-pattern matcher: a successful match exhibits the
spec's `H:MM:SS.mmm,H:MM:SS.mmm` decomposition of the string and returns the
captured values. -/
theorem matchTimestamp_spec (str : String)
    (ab : (Nat × Nat × Nat × Nat) × (Nat × Nat × Nat × Nat))
    (hmatch : matchTimestamp str = some ab) :
    ∃ h1 m1 s1 ms1 h2 m2 s2 ms2 : List Char,
      SpecDecomp str h1 m1 s1 ms1 h2 m2 s2 ms2 ∧
      ab = ((digitsToNat h1, digitsToNat m1, digitsToNat s1, digitsToNat ms1),
            (digitsToNat h2, digitsToNat m2, digitsToNat s2, digitsToNat ms2)) := by
  simp only [matchTimestamp] at hmatch
  split at hmatch
  · cases hmatch
  · rename_i a r hA
    split at hmatch
    · cases hmatch
    · rename_i r2 hB
      split at hmatch
      · cases hmatch
      · rename_i b r3 hC
        by_cases hr3 : r3 = []
        · rw [if_pos hr3] at hmatch
          obtain ⟨h1, m1, s1, ms1, hd1, hne1, hdg1, hl1, hdm1, hl2, hds1, hl3, hdms1, ha⟩ :=
            matchSide_spec str.data a r hA
          have hrc : r = ',' :: r2 := expectChar_spec ',' r r2 hB
          obtain ⟨h2, m2, s2, ms2, hd2, hne2, hdg2, hl4, hdm2, hl5, hds2, hl6, hdms2, hb⟩ :=
            matchSide_spec r2 b r3 hC
          refine ⟨h1, m1, s1, ms1, h2, m2, s2, ms2,
            ⟨?_, hne1, hdg1, hl1, hdm1, hl2, hds1, hl3, hdms1,
              hne2, hdg2, hl4, hdm2, hl5, hds2, hl6, hdms2⟩, ?_⟩
          · rw [hd1, hrc, hd2, hr3, List.append_nil]
          · simp only [Option.some.injEq] at hmatch
            rw [← hmatch, ha, hb]
        · rw [if_neg hr3] at hmatch
          cases hmatch

/-- Completeness of the full-pattern matcher on a spec decomposition. -/
theorem matchTimestamp_exact (str : String) (h1 m1 s1 ms1 h2 m2 s2 ms2 : List Char)
    (hd : SpecDecomp str h1 m1 s1 ms1 h2 m2 s2 ms2) :
    matchTimestamp str =
      some ((digitsToNat h1, digitsToNat m1, digitsToNat s1, digitsToNat ms1),
            (digitsToNat h2, digitsToNat m2, digitsToNat s2, digitsToNat ms2)) := by
  obtain ⟨heq, hne1, hdg1, hl1, hdm1, hl2, hds1, hl3, hdms1,
    hne2, hdg2, hl4, hdm2, hl5, hds2, hl6, hdms2⟩ := hd
  have hside2 := matchSide_exact h2 m2 s2 ms2 [] hne2 hdg2 hl4 hdm2 hl5 hds2 hl6 hdms2
  rw [List.append_nil] at hside2
  have hside1 := matchSide_exact h1 m1 s1 ms1
    (',' :: (h2 ++ ':' :: (m2 ++ ':' :: (s2 ++ '.' :: ms2))))
    hne1 hdg1 hl1 hdm1 hl2 hds1 hl3 hdms1
  simp only [matchTimestamp, heq, hside1, expectChar_exact, hside2, if_pos rfl]
  exact if_pos trivial

/-- C7: `parse_timestamp` fails (raises FormatError) exactly when its
stripped input does not match the `H:MM:SS.mmm,H:MM:SS.mmm` pattern; on any
decomposition matching the pattern it returns `(h*3600+m*60+s)*1000+ms` per
side, and in particular `"1:30:45.500,2:15:30.250"` yields start 5445500 ms
and end 8130250 ms. -/
theorem parse_timestamp_spec (s : String) :
    (parse_timestamp s = none ↔ ¬ TimestampSpecPattern (pyStrip s)) ∧
    (∀ g1 g2 g3 g4 g5 g6 g7 g8 : List Char,
      SpecDecomp (pyStrip s) g1 g2 g3 g4 g5 g6 g7 g8 →
      parse_timestamp s = some
        ((digitsToNat g1 * 3600 + digitsToNat g2 * 60 + digitsToNat g3) * 1000 +
            digitsToNat g4,
          (digitsToNat g5 * 3600 + digitsToNat g6 * 60 + digitsToNat g7) * 1000 +
            digitsToNat g8)) ∧
    parse_timestamp "1:30:45.500,2:15:30.250" = some (5445500, 8130250) := by
  have hmain : ∀ g1 g2 g3 g4 g5 g6 g7 g8 : List Char,
      SpecDecomp (pyStrip s) g1 g2 g3 g4 g5 g6 g7 g8 →
      parse_timestamp s = some
        ((digitsToNat g1 * 3600 + digitsToNat g2 * 60 + digitsToNat g3) * 1000 +
            digitsToNat g4,
          (digitsToNat g5 * 3600 + digitsToNat g6 * 60 + digitsToNat g7) * 1000 +
            digitsToNat g8) := by
    intro g1 g2 g3 g4 g5 g6 g7 g8 hd
    have hm := matchTimestamp_exact (pyStrip s) g1 g2 g3 g4 g5 g6 g7 g8 hd
    simp [parse_timestamp, hm]
  refine ⟨?_, hmain, ?_⟩
  · cases hmt : matchTimestamp (pyStrip s) with
    | none =>
      constructor
      · intro _ hpat
        obtain ⟨g1, g2, g3, g4, g5, g6, g7, g8, hd⟩ := hpat
        have hcontra := matchTimestamp_exact (pyStrip s) g1 g2 g3 g4 g5 g6 g7 g8 hd
        rw [hmt] at hcontra
        cases hcontra
      · intro _
        simp [parse_timestamp, hmt]
    | some ab =>
      obtain ⟨⟨a1, a2, a3, a4⟩, ⟨b1, b2, b3, b4⟩⟩ := ab
      constructor
      · intro hn
        simp [parse_timestamp, hmt] at hn
      · intro hnp
        exfalso
        obtain ⟨g1, g2, g3, g4, g5, g6, g7, g8, hd, _⟩ :=
          matchTimestamp_spec (pyStrip s) ((a1, a2, a3, a4), (b1, b2, b3, b4)) hmt
        exact hnp ⟨g1, g2, g3, g4, g5, g6, g7, g8, hd⟩
  · rfl

theorem parse_timestamp_spec_witness :
    parse_timestamp "1:30:45.500,2:15:30.250" = some (5445500, 8130250) :=
  (parse_timestamp_spec "1:30:45.500,2:15:30.250").2.2

/-- A decimal digit is not whitespace. -/
theorem digit_not_ws (c : Char) (h : isDigitChar c = true) : c.isWhitespace = false := by
  cases hw : c.isWhitespace
  · rfl
  · exfalso
    have hcs : c = ' ' ∨ c = '\t' ∨ c = '\r' ∨ c = '\n' := by
      simp [Char.isWhitespace] at hw
      tauto
    rcases hcs with h1 | h1 | h1 | h1 <;>
      (subst h1; exact absurd h (by decide))

/-- A list whose first and last characters are not whitespace is unchanged by
stripping. -/
theorem pyStripList_eq_self (l : List Char)
    (hhead : ∀ c, l.head? = some c → c.isWhitespace = false)
    (hlast : ∀ c, l.getLast? = some c → c.isWhitespace = false) :
    pyStripList l = l := by
  have h1 : l.dropWhile Char.isWhitespace = l := by
    cases l with
    | nil => rfl
    | cons c cs =>
      have hc := hhead c rfl
      simp [List.dropWhile_cons, hc]
  have h2 : l.reverse.dropWhile Char.isWhitespace = l.reverse := by
    cases hrev : l.reverse with
    | nil => rfl
    | cons c cs =>
      have hc : l.getLast? = some c := by
        rw [← List.head?_reverse, hrev]
        rfl
      have hcw := hlast c hc
      simp [List.dropWhile_cons, hcw]
  rw [pyStripList, h1, h2, List.reverse_reverse]

/-- A string accepted by the timestamp matcher has no surrounding whitespace:
stripping it is the identity. -/
theorem pyStrip_of_match (str : String)
    (ab : (Nat × Nat × Nat × Nat) × (Nat × Nat × Nat × Nat))
    (hmatch : matchTimestamp str = some ab) : pyStrip str = str := by
  obtain ⟨h1, m1, s1, ms1, h2, m2, s2, ms2, hd, _⟩ := matchTimestamp_spec str ab hmatch
  obtain ⟨heq, hne1, hdg1, _, _, _, _, _, _, _, _, _, _, _, _, hl6, hdms2⟩ := hd
  have hms2ne : ms2 ≠ [] := by
    intro hE
    rw [hE] at hl6
    simp at hl6
  have hlast : str.data.getLast? = ms2.getLast? := by
    rw [heq, List.getLast?_append_cons, ← List.cons_append, List.getLast?_append_cons,
      ← List.cons_append, List.getLast?_append_cons, ← List.cons_append,
      List.getLast?_append_cons, ← List.cons_append, List.getLast?_append_cons,
      ← List.cons_append, List.getLast?_append_cons, ← List.cons_append,
      List.getLast?_append_cons]
    rw [show ('.' :: ms2) = ['.'] ++ ms2 from rfl,
      List.getLast?_append_of_ne_nil _ hms2ne]
  have hstrip : pyStripList str.data = str.data := by
    refine pyStripList_eq_self str.data ?_ ?_
    · intro c hc
      obtain ⟨c0, t0, hE⟩ := List.exists_cons_of_ne_nil hne1
      rw [heq, hE] at hc
      simp only [List.cons_append, List.head?_cons, Option.some.injEq] at hc
      have hc0 : c0 = c := hc
      subst hc0
      exact digit_not_ws c0 (hdg1 c0 (by rw [hE]; exact List.mem_cons_self _ _))
    · intro c hc
      rw [hlast] at hc
      obtain ⟨hlne, hcg⟩ := List.mem_getLast?_eq_getLast hc
      have hcmem : c ∈ ms2 := by
        rw [hcg]
        exact List.getLast_mem hlne
      exact digit_not_ws c (hdms2 c hcmem)
  cases str with
  | mk data =>
    show String.mk (pyStripList data) = String.mk data
    rw [show (String.mk data).data = data from rfl] at hstrip
    rw [hstrip]

/-- The text-collection loop of `parse_sbv` never hands back more lines than
it received. -/
theorem collectText_length : ∀ ls : List String, (collectText ls).2.length ≤ ls.length := by
  intro ls
  induction ls with
  | nil => simp [collectText]
  | cons x xs ih =>
    simp only [collectText]
    split
    · simp
    · exact Nat.le_trans ih (Nat.le_succ _)

/-- Totality of the `parse_sbv` scanning loop: the `ValueError` branch of
`parse_timestamp` is unreachable, because `parse_timestamp` is only invoked
on lines that already matched `TIMESTAMP_PATTERN`, and such lines are
unchanged by the second strip inside `parse_timestamp`. -/
theorem parseSbvGo_total (b : Bool) :
    ∀ (n k : Nat) (lines : List String), lines.length ≤ n →
      (parseSbvGo b k lines).isSome = true := by
  intro n
  induction n with
  | zero =>
    intro k lines hl
    have hnil : lines = [] := List.length_eq_zero.mp (Nat.le_zero.mp hl)
    subst hnil
    rw [parseSbvGo]
    rfl
  | succ n ih =>
    intro k lines hl
    cases lines with
    | nil => rw [parseSbvGo]; rfl
    | cons ln rest =>
      simp only [List.length_cons] at hl
      simp only [parseSbvGo]
      split
      · exact ih k rest (by omega)
      · split
        · rename_i hts
          obtain ⟨ab, hab⟩ := Option.isSome_iff_exists.mp hts
          obtain ⟨⟨a1, a2, a3, a4⟩, ⟨b1, b2, b3, b4⟩⟩ := ab
          have hstrip := pyStrip_of_match (pyStrip ln) _ hab
          have hpt : parse_timestamp (pyStrip ln) =
              some ((a1 * 3600 + a2 * 60 + a3) * 1000 + a4,
                (b1 * 3600 + b2 * 60 + b3) * 1000 + b4) := by
            simp [parse_timestamp, hstrip, hab]
          rw [hpt]
          have hrec := ih (k + 1) (collectText rest).2
            (Nat.le_trans (collectText_length rest) (by omega))
          obtain ⟨es, hes⟩ := Option.isSome_iff_exists.mp hrec
          simp [hes]
        · exact ih k rest (by omega)

/-- C9: `parse_sbv` is total: for every input string and either value of the
rounding flag it returns a list of entries — the FormatError branch of
`parse_timestamp` is unreachable from `parse_sbv`. -/
theorem parse_sbv_total (content : String) (round_to_seconds : Bool) :
    ∃ entries : List SubtitleEntry,
      parse_sbv content round_to_seconds = some entries := by
  have := parseSbvGo_total round_to_seconds (content.splitOn "\n").length 0
    (content.splitOn "\n") (Nat.le_refl _)
  obtain ⟨es, hes⟩ := Option.isSome_iff_exists.mp this
  exact ⟨es, by rw [parse_sbv]; exact hes⟩
